import Mathlib

/-!
Verification of the core of the `somalia-ex-rate` package against its
natural-language specification.  The development shallowly embeds the
TypeScript sources:

* `src/index.ts` — `getRates` (cache / ttl / offline / seed resolution) and
  `convert` (pivot-based currency conversion);
* `src/providers/manager.ts` — `ProviderManager.fetchRates` (ordered
  failover with bounded retry and exponential backoff),
  `fetchHistoricalRates`, `addFallbackProvider`;
* `src/localization.ts` (`HistoricalRateService`) — `getHistoricalRates`,
  `getRateHistory`, `getVolatility`, `cacheRates` (90-day pruning);
* `src/cache.ts` / `src/utils.ts` — the two-tier cache collaborators.

JavaScript numbers are modelled as exact rationals (reals only where the
code takes square roots); timestamps as integers (milliseconds); ISO dates
as natural day numbers (ISO-8601 strings compare lexicographically exactly
as their day numbers compare).  Provider calls are modelled by explicit
outcome oracles, and effects (cache tiers written, provider invocations,
backoff sleeps) are returned as data so that the spec's statements about
"no network call", "exactly N attempts" and "N−1 backoff delays" are
honest propositions.
-/

namespace Sosx

/-- The supported ISO-4217 currency codes (`src/types.ts`). -/
inductive CCy where
  | SOS | USD | EUR | GBP | KES | ETB | AED | SAR | TRY | CNY
deriving DecidableEq, Fintype

/-- A rate table: for each currency, the value of 1 SOS (the pivot) in that
currency (`RateTable = Record<ISO4217, number>` in `src/types.ts`). -/
def RateTable : Type := CCy → ℚ

instance : DecidableEq RateTable := by
  unfold RateTable; infer_instance

/-- Embedding of `convert` (`src/index.ts` lines 78–92).  The returned
Boolean records whether the rate table was consulted at all, i.e. whether
`await getRates(options)` was reached; the `from === to` early return
happens before any lookup or fetch. -/
def convert (table : RateTable) (amount : ℚ) (src dst : CCy) : ℚ × Bool :=
  if src = dst then (amount, false)
  else if src = CCy.SOS then (amount * table dst, true)
  else if dst = CCy.SOS then (amount * (1 / table src), true)
  else (amount * (1 / table src) * table dst, true)

/-- C8: `convert(amount, from, to)` returns `amount` unchanged, with no
table lookup and no fetch, when `from == to`; returns `amount * table[to]`
when `from` is the pivot; `amount * (1 / table[from])` when `to` is the
pivot; and `(amount / table[from]) * table[to]` (routing through the
pivot) otherwise. -/
theorem C8_convert_branches (t : RateTable) (x : ℚ) (a b : CCy) :
    (a = b → convert t x a b = (x, false)) ∧
    (a ≠ b → a = CCy.SOS → convert t x a b = (x * t b, true)) ∧
    (a ≠ b → b = CCy.SOS → convert t x a b = (x * (1 / t a), true)) ∧
    (a ≠ b → a ≠ CCy.SOS → b ≠ CCy.SOS →
      convert t x a b = (x / t a * t b, true)) := by
  refine ⟨?_, ?_, ?_, ?_⟩
  · intro h
    simp [convert, h]
  · intro hne hs
    subst hs
    simp [convert, hne]
  · intro hne hd
    subst hd
    have ha : a ≠ CCy.SOS := hne
    simp [convert, hne, ha]
  · intro hne ha hb
    simp [convert, hne, ha, hb]
    left
    rw [div_eq_mul_inv]

/-- Witness for C8 on the concrete table `fun _ => 2`. -/
theorem C8_convert_branches_witness :
    convert (fun _ => (2 : ℚ)) 5 CCy.USD CCy.USD = (5, false) ∧
    convert (fun _ => (2 : ℚ)) 5 CCy.SOS CCy.USD = (10, true) ∧
    convert (fun _ => (2 : ℚ)) 5 CCy.USD CCy.SOS = (5 / 2, true) ∧
    convert (fun _ => (2 : ℚ)) 5 CCy.USD CCy.EUR = (5, true) := by
  refine ⟨?_, ?_, ?_, ?_⟩
  · exact (C8_convert_branches (fun _ => 2) 5 CCy.USD CCy.USD).1 rfl
  · have h := (C8_convert_branches (fun _ => 2) 5 CCy.SOS CCy.USD).2.1
      (by decide) rfl
    rw [h]; norm_num
  · have h := (C8_convert_branches (fun _ => 2) 5 CCy.USD CCy.SOS).2.2.1
      (by decide) rfl
    rw [h]; norm_num
  · have h := (C8_convert_branches (fun _ => 2) 5 CCy.USD CCy.EUR).2.2.2
      (by decide) (by decide) (by decide)
    rw [h]; norm_num

/-- C7: for every non-pivot pair `(A, B)`, every table with strictly
positive entries at `A` and `B`, and every amount `x`,
`convert(convert(x,A,B),B,A)` equals `x` within `1e-6` relative error (in
the exact-rational semantics the round trip is exact, hence certainly
within the tolerance). -/
theorem C7_convert_roundTrip (t : RateTable) (x : ℚ) (a b : CCy)
    (ha : a ≠ CCy.SOS) (hb : b ≠ CCy.SOS)
    (hta : 0 < t a) (htb : 0 < t b) :
    |(convert t (convert t x a b).1 b a).1 - x| ≤ 1 / 1000000 * |x| := by
  have hta0 : t a ≠ 0 := ne_of_gt hta
  have htb0 : t b ≠ 0 := ne_of_gt htb
  by_cases hab : a = b
  · subst hab
    simp [convert]
  · have hba : b ≠ a := fun h => hab h.symm
    have hval : (convert t (convert t x a b).1 b a).1 = x := by
      simp [convert, hab, hba, ha, hb]
      field_simp
      ring
    rw [hval]
    simp

/-- Witness for C7: table `fun _ => 2`, `x = 7`, `A = USD`, `B = EUR`. -/
theorem C7_convert_roundTrip_witness :
    |(convert (fun _ => (2 : ℚ))
        (convert (fun _ => (2 : ℚ)) 7 CCy.USD CCy.EUR).1 CCy.EUR CCy.USD).1
      - 7| ≤ 1 / 1000000 * |(7 : ℚ)| :=
  C7_convert_roundTrip (fun _ => 2) 7 CCy.USD CCy.EUR
    (by decide) (by decide) (by norm_num) (by norm_num)

/-- A cached snapshot (`Cached` in `src/cache.ts`): capture time in
milliseconds (`at`, a reserved word in Lean, hence `capturedAt`) and the
rate table. -/
structure Cached where
  capturedAt : ℤ
  rates : RateTable
deriving DecidableEq

/-- Embedding of `readCache` (`src/index.ts` lines 28–33): the in-process
tier is preferred; otherwise the durable tier is consulted (a read failure
or malformed file is already a `none`). -/
def readCache (mem disk : Option Cached) : Option Cached :=
  match mem with
  | some c => some c
  | none => disk

/-- The observable outcome of one `getRates` call: the returned table, the
two cache tiers after the call, and how many times the configured
provider's `fetchRatesSOS` was invoked. -/
structure GetRatesOutcome where
  rates : RateTable
  mem : Option Cached
  disk : Option Cached
  fetchCount : ℕ
deriving DecidableEq

/-- Embedding of `getRates` (`src/index.ts` lines 41–69).  `fetch` is the
outcome of the single configured provider's `fetchRatesSOS()` call
(`none` = the promise rejected); `diskWriteOk` records whether the
best-effort durable write in `writeCache` succeeds (`tryWriteJSON`
swallows failures). -/
def getRates (seed : RateTable) (mem disk : Option Cached) (now ttlMs : ℤ)
    (offline : Bool) (fetch : Option RateTable) (diskWriteOk : Bool) :
    GetRatesOutcome :=
  match readCache mem disk with
  | some c =>
    if now - c.capturedAt < ttlMs then ⟨c.rates, mem, disk, 0⟩
    else if offline then ⟨c.rates, mem, disk, 0⟩
    else
      match fetch with
      | some live =>
        ⟨live, some ⟨now, live⟩,
          if diskWriteOk then some ⟨now, live⟩ else disk, 1⟩
      | none => ⟨c.rates, mem, disk, 1⟩
  | none =>
    if offline then ⟨seed, mem, disk, 0⟩
    else
      match fetch with
      | some live =>
        ⟨live, some ⟨now, live⟩,
          if diskWriteOk then some ⟨now, live⟩ else disk, 1⟩
      | none => ⟨seed, mem, disk, 1⟩

/-- A cached snapshot is fresh when `now - capturedAt < ttlMs`
(`src/index.ts` line 50). -/
def isFresh (cached : Option Cached) (now ttlMs : ℤ) : Prop :=
  ∃ c, cached = some c ∧ now - c.capturedAt < ttlMs

instance (cached : Option Cached) (now ttlMs : ℤ) :
    Decidable (isFresh cached now ttlMs) := by
  unfold isFresh
  cases cached with
  | none => exact .isFalse (by simp)
  | some c => exact decidable_of_iff (now - c.capturedAt < ttlMs) (by simp)

/-- C1: resolution order of `getRates`.  A fresh cache is returned with no
provider invocation; with `offline` set, the cached table (even stale) is
returned when one exists and the seed table otherwise, with no network
attempt; otherwise the provider is invoked once, on success the new
snapshot is written to the cache and returned, and on failure the stale
cached table (or else the seed) is returned — the function is total, so
`getRates` never raises for these operational failures. -/
theorem C1_getRates_resolution (seed : RateTable) (mem disk : Option Cached)
    (now ttlMs : ℤ) (offline : Bool) (fetch : Option RateTable)
    (diskWriteOk : Bool) :
    (∀ c, readCache mem disk = some c → now - c.capturedAt < ttlMs →
      getRates seed mem disk now ttlMs offline fetch diskWriteOk
        = ⟨c.rates, mem, disk, 0⟩) ∧
    (¬ isFresh (readCache mem disk) now ttlMs → offline = true →
      getRates seed mem disk now ttlMs offline fetch diskWriteOk
        = ⟨(match readCache mem disk with
            | some c => c.rates
            | none => seed), mem, disk, 0⟩) ∧
    (¬ isFresh (readCache mem disk) now ttlMs → offline = false →
      ∀ live, fetch = some live →
      getRates seed mem disk now ttlMs offline fetch diskWriteOk
        = ⟨live, some ⟨now, live⟩,
            if diskWriteOk then some ⟨now, live⟩ else disk, 1⟩) ∧
    (¬ isFresh (readCache mem disk) now ttlMs → offline = false →
      fetch = none →
      getRates seed mem disk now ttlMs offline fetch diskWriteOk
        = ⟨(match readCache mem disk with
            | some c => c.rates
            | none => seed), mem, disk, 1⟩) := by
  refine ⟨?_, ?_, ?_, ?_⟩
  · intro c hc hlt
    simp [getRates, hc, hlt]
  · intro hstale hoff
    subst hoff
    cases hc : readCache mem disk with
    | none => simp [getRates, hc]
    | some c =>
      have hge : ¬ now - c.capturedAt < ttlMs := fun h => hstale ⟨c, hc, h⟩
      simp [getRates, hc, hge]
  · intro hstale hoff live hlive
    subst hoff hlive
    cases hc : readCache mem disk with
    | none => simp [getRates, hc]
    | some c =>
      have hge : ¬ now - c.capturedAt < ttlMs := fun h => hstale ⟨c, hc, h⟩
      simp [getRates, hc, hge]
  · intro hstale hoff hnone
    subst hoff hnone
    cases hc : readCache mem disk with
    | none => simp [getRates, hc]
    | some c =>
      have hge : ¬ now - c.capturedAt < ttlMs := fun h => hstale ⟨c, hc, h⟩
      simp [getRates, hc, hge]

/-- A concrete stale cached snapshot used by witnesses. -/
def staleSnap : Cached :=
  ⟨0, fun _ => 3⟩

/-- Witness for C1: all four resolution branches at concrete inputs
(fresh hit; offline with a stale cache; online success; online failure
with no cache). -/
theorem C1_getRates_resolution_witness :
    getRates (fun _ => 1) (some staleSnap) none 5 10 false none true
      = ⟨staleSnap.rates, some staleSnap, none, 0⟩ ∧
    getRates (fun _ => 1) (some staleSnap) none 50 10 true none true
      = ⟨staleSnap.rates, some staleSnap, none, 0⟩ ∧
    getRates (fun _ => 1) (some staleSnap) none 50 10 false
        (some (fun _ => 7)) true
      = ⟨(fun _ => 7), some ⟨50, fun _ => 7⟩, some ⟨50, fun _ => 7⟩, 1⟩ ∧
    getRates (fun _ => 1) none none 50 10 false none true
      = ⟨(fun _ => 1), none, none, 1⟩ := by
  refine ⟨?_, ?_, ?_, ?_⟩
  · exact (C1_getRates_resolution (fun _ => 1) (some staleSnap) none 5 10
      false none true).1 staleSnap rfl (by norm_num [staleSnap])
  · exact (C1_getRates_resolution (fun _ => 1) (some staleSnap) none 50 10
      true none true).2.1 (by norm_num [isFresh, readCache, staleSnap]) rfl
  · exact (C1_getRates_resolution (fun _ => 1) (some staleSnap) none 50 10
      false (some (fun _ => 7)) true).2.2.1
      (by norm_num [isFresh, readCache, staleSnap]) rfl _ rfl
  · exact (C1_getRates_resolution (fun _ => 1) none none 50 10
      false none true).2.2.2 (by simp [isFresh, readCache]) rfl rfl

/-- Observable events of a `ProviderManager.fetchRates()` run
(`src/providers/manager.ts` lines 19–44): an attempt on provider number
`pIdx` (0 = primary) with 1-based attempt counter and its outcome, or a
backoff sleep of `ms` milliseconds. -/
inductive Ev where
  | att (pIdx attempt : ℕ) (ok : Bool)
  | delay (ms : ℕ)
deriving DecidableEq

/-- The retry loop of `fetchRates` on a single provider (`for attempt = 1;
attempt <= maxRetries`).  `p` maps the attempt number to the outcome of
`fetchWithTimeout` (a timeout is just another `error`); `fuel` is the
number of attempts still allowed, so the loop is entered with `attempt =
1` and `fuel = maxRetries`.  Returns the events emitted, the successful
table if any, and the last error observed (the code's `lastError` as left
by this provider). -/
def providerRun {E : Type} (pIdx : ℕ) (p : ℕ → Except E RateTable)
    (attempt fuel : ℕ) : List Ev × Option RateTable × Option E :=
  match fuel with
  | 0 => ([], none, none)
  | fuel' + 1 =>
    match p attempt with
    | .ok t => ([.att pIdx attempt true], some t, none)
    | .error e =>
      match fuel' with
      | 0 => ([.att pIdx attempt false], none, some e)
      | _ + 1 =>
        let r := providerRun pIdx p (attempt + 1) fuel'
        (.att pIdx attempt false :: .delay (2 ^ (attempt - 1) * 1000) :: r.1,
          r.2.1,
          match r.2.2 with
          | some e' => some e'
          | none => some e)

/-- Update of the loop's `lastError` variable after one provider block:
the block's last error when it had any failure, the previous value
otherwise. -/
def lastErrUpd {E : Type} (o fb : Option E) : Option E :=
  match o with
  | some e => some e
  | none => fb

/-- The outer provider loop of `fetchRates`: providers in order, threading
the `lastError` variable; when every provider is exhausted the run ends in
`Except.error lastError` (the thrown `All providers failed. Last error:
...`). -/
def fetchRatesGo {E : Type} (ps : List (ℕ → Except E RateTable))
    (maxRetries pIdx : ℕ) (lastErr : Option E) :
    List Ev × Except (Option E) RateTable :=
  match ps with
  | [] => ([], .error lastErr)
  | p :: rest =>
    let r := providerRun pIdx p 1 maxRetries
    match r.2.1 with
    | some t => (r.1, .ok t)
    | none =>
      let rst := fetchRatesGo rest maxRetries (pIdx + 1)
        (lastErrUpd r.2.2 lastErr)
      (r.1 ++ rst.1, rst.2)

/-- Embedding of `ProviderManager.fetchRates()` over the ordered provider
list `[primary, ...fallbacks]`. -/
def fetchRates {E : Type} (ps : List (ℕ → Except E RateTable))
    (maxRetries : ℕ) : List Ev × Except (Option E) RateTable :=
  fetchRatesGo ps maxRetries 0 none

/-- The attempt events of a run, as `(provider index, attempt number,
succeeded)` triples. -/
def evAtts : List Ev → List (ℕ × ℕ × Bool) :=
  List.filterMap fun e =>
    match e with
    | .att p a ok => some (p, a, ok)
    | .delay _ => none

/-- The backoff sleeps of a run, in milliseconds, in order. -/
def evDelays : List Ev → List ℕ :=
  List.filterMap fun e =>
    match e with
    | .att _ _ _ => none
    | .delay ms => some ms

/-- Backoff wellformedness of an event stream: every delay is exactly
`2^(attempt-1)` seconds (in ms), sits immediately after a failed attempt
`attempt < maxRetries` and immediately before attempt `attempt + 1` on
the same provider. -/
inductive DelayShape (maxR : ℕ) : List Ev → Prop where
  | nil : DelayShape maxR []
  | consAtt (p a : ℕ) (ok : Bool) (l : List Ev)
      (hl : l = [] ∨ ∃ p' a' ok' tl, l = .att p' a' ok' :: tl)
      (h : DelayShape maxR l) : DelayShape maxR (.att p a ok :: l)
  | consDelay (p a : ℕ) (ha : a < maxR) (ok' : Bool) (tl : List Ev)
      (h : DelayShape maxR (.att p (a + 1) ok' :: tl)) :
      DelayShape maxR
        (.att p a false :: .delay (2 ^ (a - 1) * 1000)
          :: .att p (a + 1) ok' :: tl)

/-- A wellformed stream is empty or starts with an attempt event. -/
theorem DelayShape.headAtt {maxR : ℕ} {l : List Ev} (h : DelayShape maxR l) :
    l = [] ∨ ∃ p a ok tl, l = .att p a ok :: tl := by
  cases h with
  | nil => exact Or.inl rfl
  | consAtt p a ok l hl hs => exact Or.inr ⟨p, a, ok, l, rfl⟩
  | consDelay p a ha ok' tl hs =>
    exact Or.inr ⟨p, a, false, _, rfl⟩

/-- Concatenating wellformed streams yields a wellformed stream. -/
theorem DelayShape.append {maxR : ℕ} {l₁ l₂ : List Ev}
    (h₁ : DelayShape maxR l₁) (h₂ : DelayShape maxR l₂) :
    DelayShape maxR (l₁ ++ l₂) := by
  induction h₁ with
  | nil => simpa using h₂
  | consAtt p a ok l hl hs ih =>
    refine DelayShape.consAtt p a ok (l ++ l₂) ?_ ih
    cases hl with
    | inl hnil =>
      subst hnil
      simpa using h₂.headAtt
    | inr hcons =>
      obtain ⟨p', a', ok', tl, rfl⟩ := hcons
      exact Or.inr ⟨p', a', ok', tl ++ l₂, rfl⟩
  | consDelay p a ha ok' tl hs ih =>
    exact DelayShape.consDelay p a ha ok' (tl ++ l₂) ih

/-- One-step equation: empty fuel. -/
theorem providerRun_zero {E : Type} (pIdx : ℕ) (p : ℕ → Except E RateTable)
    (attempt : ℕ) : providerRun pIdx p attempt 0 = ([], none, none) := rfl

/-- One-step equation: the attempt succeeds. -/
theorem providerRun_ok {E : Type} (pIdx : ℕ) {p : ℕ → Except E RateTable}
    {attempt : ℕ} (fuel : ℕ) {t : RateTable} (h : p attempt = .ok t) :
    providerRun pIdx p attempt (fuel + 1)
      = ([.att pIdx attempt true], some t, none) := by
  cases fuel <;> simp [providerRun, h]

/-- One-step equation: the last allowed attempt fails (no backoff). -/
theorem providerRun_errLast {E : Type} (pIdx : ℕ)
    {p : ℕ → Except E RateTable} {attempt : ℕ} {e : E}
    (h : p attempt = .error e) :
    providerRun pIdx p attempt 1 = ([.att pIdx attempt false], none, some e)
    := by
  simp [providerRun, h]

/-- One-step equation: a failed attempt with retries left; a backoff of
`2^(attempt-1)` seconds is slept before the next attempt on the same
provider. -/
theorem providerRun_errStep {E : Type} (pIdx : ℕ)
    {p : ℕ → Except E RateTable} {attempt : ℕ} {e : E} {fuel : ℕ}
    (h : p attempt = .error e) (hf : 1 ≤ fuel) :
    providerRun pIdx p attempt (fuel + 1)
      = (.att pIdx attempt false :: .delay (2 ^ (attempt - 1) * 1000)
            :: (providerRun pIdx p (attempt + 1) fuel).1,
          (providerRun pIdx p (attempt + 1) fuel).2.1,
          match (providerRun pIdx p (attempt + 1) fuel).2.2 with
          | some e' => some e'
          | none => some e) := by
  match fuel, hf with
  | k + 1, _ => simp [providerRun, h]

/-- `evAtts` distributes over event constructors. -/
theorem evAtts_nil : evAtts [] = [] := rfl

/-- `evAtts` keeps attempt events. -/
theorem evAtts_att (p a : ℕ) (ok : Bool) (l : List Ev) :
    evAtts (.att p a ok :: l) = (p, a, ok) :: evAtts l := rfl

/-- `evAtts` drops delay events. -/
theorem evAtts_delay (ms : ℕ) (l : List Ev) :
    evAtts (.delay ms :: l) = evAtts l := rfl

/-- `evAtts` distributes over append. -/
theorem evAtts_append (l₁ l₂ : List Ev) :
    evAtts (l₁ ++ l₂) = evAtts l₁ ++ evAtts l₂ :=
  List.filterMap_append l₁ l₂ _

/-- `evDelays` drops attempt events. -/
theorem evDelays_att (p a : ℕ) (ok : Bool) (l : List Ev) :
    evDelays (.att p a ok :: l) = evDelays l := rfl

/-- `evDelays` keeps delay events. -/
theorem evDelays_delay (ms : ℕ) (l : List Ev) :
    evDelays (.delay ms :: l) = ms :: evDelays l := rfl

/-- `evDelays` of the empty stream. -/
theorem evDelays_nil : evDelays [] = [] := rfl

/-- With fuel left, a provider block starts with its first attempt event. -/
theorem providerRun_head {E : Type} (pIdx : ℕ) (p : ℕ → Except E RateTable)
    (attempt fuel : ℕ) (hf : 1 ≤ fuel) :
    ∃ ok tl,
      (providerRun pIdx p attempt fuel).1 = .att pIdx attempt ok :: tl := by
  match fuel, hf with
  | fuel' + 1, _ =>
    cases hp : p attempt with
    | ok t => exact ⟨true, [], by rw [providerRun_ok pIdx fuel' hp]⟩
    | error e =>
      cases fuel' with
      | zero => exact ⟨false, [], by rw [providerRun_errLast pIdx hp]⟩
      | succ k =>
        exact ⟨false, _, by rw [providerRun_errStep pIdx hp (by omega)]⟩

/-- The events of a single provider block are backoff-wellformed provided
the block is entered within the retry budget. -/
theorem providerRun_delayShape {E : Type} (maxR pIdx : ℕ)
    (p : ℕ → Except E RateTable) :
    ∀ fuel attempt, attempt + fuel ≤ maxR + 1 →
      DelayShape maxR (providerRun pIdx p attempt fuel).1 := by
  intro fuel
  induction fuel with
  | zero =>
    intro attempt _
    rw [providerRun_zero]
    exact DelayShape.nil
  | succ fuel' ih =>
    intro attempt hb
    cases hp : p attempt with
    | ok t =>
      rw [providerRun_ok pIdx fuel' hp]
      exact DelayShape.consAtt pIdx attempt true [] (Or.inl rfl) DelayShape.nil
    | error e =>
      cases fuel' with
      | zero =>
        rw [providerRun_errLast pIdx hp]
        exact DelayShape.consAtt pIdx attempt false [] (Or.inl rfl)
          DelayShape.nil
      | succ k =>
        rw [providerRun_errStep pIdx hp (by omega)]
        obtain ⟨ok', tl, htl⟩ :=
          providerRun_head pIdx p (attempt + 1) (k + 1) (by omega)
        have hrec : DelayShape maxR (.att pIdx (attempt + 1) ok' :: tl) := by
          rw [← htl]
          exact ih (attempt + 1) (by omega)
        rw [htl]
        exact DelayShape.consDelay pIdx attempt (by omega) ok' tl hrec

/-- Successor relation between consecutive attempt events: either attempt
`a + 1` on the same provider, or attempt 1 on a strictly later provider. -/
def attR (x y : ℕ × ℕ × Bool) : Prop :=
  (y.1 = x.1 ∧ y.2.1 = x.2.1 + 1) ∨ (x.1 < y.1 ∧ y.2.1 = 1)

instance (x y : ℕ × ℕ × Bool) : Decidable (attR x y) := by
  unfold attR; infer_instance

/-- Attempt events of a single provider block: constant provider index,
attempt numbers bounded by `maxRetries`, consecutive numbering starting
at the entry attempt, and at most `fuel` attempts. -/
theorem providerRun_atts {E : Type} (maxR pIdx : ℕ)
    (p : ℕ → Except E RateTable) :
    ∀ fuel attempt, attempt + fuel ≤ maxR + 1 →
      (∀ x ∈ evAtts (providerRun pIdx p attempt fuel).1,
          x.1 = pIdx ∧ attempt ≤ x.2.1 ∧ x.2.1 ≤ maxR) ∧
      List.Chain' attR (evAtts (providerRun pIdx p attempt fuel).1) ∧
      (∀ y ∈ (evAtts (providerRun pIdx p attempt fuel).1).head?,
          y.1 = pIdx ∧ y.2.1 = attempt) ∧
      (evAtts (providerRun pIdx p attempt fuel).1).length ≤ fuel := by
  intro fuel
  induction fuel with
  | zero =>
    intro attempt _
    rw [providerRun_zero]
    simp [evAtts_nil]
  | succ fuel' ih =>
    intro attempt hb
    cases hp : p attempt with
    | ok t =>
      rw [providerRun_ok pIdx fuel' hp]
      simp [evAtts_att, evAtts_nil]
      omega
    | error e =>
      cases fuel' with
      | zero =>
        rw [providerRun_errLast pIdx hp]
        simp [evAtts_att, evAtts_nil]
        omega
      | succ k =>
        rw [providerRun_errStep pIdx hp (by omega)]
        obtain ⟨hmem, hchain, hhead, hlen⟩ := ih (attempt + 1) (by omega)
        rw [evAtts_att, evAtts_delay]
        refine ⟨?_, ?_, ?_, ?_⟩
        · intro x hx
          rw [List.mem_cons] at hx
          rcases hx with rfl | hx
          · refine ⟨rfl, le_refl _, ?_⟩
            show attempt ≤ maxR
            omega
          · obtain ⟨h1, h2, h3⟩ := hmem x hx
            exact ⟨h1, by omega, h3⟩
        · rw [List.chain'_cons']
          refine ⟨?_, hchain⟩
          intro y hy
          obtain ⟨hy1, hy2⟩ := hhead y hy
          exact Or.inl ⟨hy1, hy2⟩
        · intro y hy
          simp only [List.head?_cons, Option.mem_def, Option.some_inj] at hy
          subst hy
          exact ⟨rfl, rfl⟩
        · rw [List.length_cons]
          omega

/-- Outcome of a single provider block: on failure every attempt event is
failed; on success the block is an all-failed prefix followed by exactly
one successful attempt event, which is the block's final event. -/
theorem providerRun_outcome {E : Type} (pIdx : ℕ)
    (p : ℕ → Except E RateTable) :
    ∀ fuel attempt,
      ((providerRun pIdx p attempt fuel).2.1 = none →
        ∀ x ∈ evAtts (providerRun pIdx p attempt fuel).1, x.2.2 = false) ∧
      (∀ t, (providerRun pIdx p attempt fuel).2.1 = some t →
        ∃ init a, (providerRun pIdx p attempt fuel).1
            = init ++ [.att pIdx a true] ∧
          ∀ x ∈ evAtts init, x.2.2 = false) := by
  intro fuel
  induction fuel with
  | zero =>
    intro attempt
    rw [providerRun_zero]
    simp [evAtts_nil]
  | succ fuel' ih =>
    intro attempt
    cases hp : p attempt with
    | ok t =>
      rw [providerRun_ok pIdx fuel' hp]
      refine ⟨?_, ?_⟩
      · intro h
        simp at h
      · intro u hu
        exact ⟨[], attempt, by simp, by simp [evAtts_nil]⟩
    | error e =>
      cases fuel' with
      | zero =>
        rw [providerRun_errLast pIdx hp]
        refine ⟨?_, ?_⟩
        · intro _ x hx
          rw [evAtts_att, evAtts_nil] at hx
          simp at hx
          simp [hx]
        · intro u hu
          simp at hu
      | succ k =>
        obtain ⟨ihfail, ihok⟩ := ih (attempt + 1)
        rw [providerRun_errStep pIdx hp (by omega)]
        refine ⟨?_, ?_⟩
        · intro h x hx
          rw [evAtts_att, evAtts_delay] at hx
          rw [List.mem_cons] at hx
          rcases hx with rfl | hx
          · rfl
          · exact ihfail h x hx
        · intro u hu
          obtain ⟨init, a, heq, hinit⟩ := ihok u hu
          refine ⟨.att pIdx attempt false
              :: .delay (2 ^ (attempt - 1) * 1000) :: init, a, ?_, ?_⟩
          · rw [heq]
            simp
          · intro x hx
            rw [evAtts_att, evAtts_delay] at hx
            rw [List.mem_cons] at hx
            rcases hx with rfl | hx
            · rfl
            · exact hinit x hx
/-- One-step equation: no providers left, throw with `lastError`. -/
theorem fetchRatesGo_nil {E : Type} (maxR pIdx : ℕ) (lastErr : Option E) :
    fetchRatesGo [] maxR pIdx lastErr = ([], .error lastErr) := rfl

/-- One-step equation: the current provider block succeeds; its events are
the whole remaining run and the table is returned. -/
theorem fetchRatesGo_consOk {E : Type} {maxR : ℕ} (pIdx : ℕ)
    {p : ℕ → Except E RateTable} (rest : List (ℕ → Except E RateTable))
    (lastErr : Option E) {t : RateTable}
    (h : (providerRun pIdx p 1 maxR).2.1 = some t) :
    fetchRatesGo (p :: rest) maxR pIdx lastErr
      = ((providerRun pIdx p 1 maxR).1, .ok t) := by
  simp [fetchRatesGo, h]

/-- One-step equation: the current provider block is exhausted; the loop
advances to the next provider with an updated `lastError`. -/
theorem fetchRatesGo_consFail {E : Type} {maxR : ℕ} (pIdx : ℕ)
    {p : ℕ → Except E RateTable} (rest : List (ℕ → Except E RateTable))
    (lastErr : Option E) (h : (providerRun pIdx p 1 maxR).2.1 = none) :
    fetchRatesGo (p :: rest) maxR pIdx lastErr
      = ((providerRun pIdx p 1 maxR).1
          ++ (fetchRatesGo rest maxR (pIdx + 1)
              (lastErrUpd (providerRun pIdx p 1 maxR).2.2 lastErr)).1,
         (fetchRatesGo rest maxR (pIdx + 1)
              (lastErrUpd (providerRun pIdx p 1 maxR).2.2 lastErr)).2) := by
  simp [fetchRatesGo, h]

/-- The full run's event stream is backoff-wellformed. -/
theorem fetchRatesGo_delayShape {E : Type} (maxR : ℕ) :
    ∀ (ps : List (ℕ → Except E RateTable)) (pIdx : ℕ) (lastErr : Option E),
      DelayShape maxR (fetchRatesGo ps maxR pIdx lastErr).1 := by
  intro ps
  induction ps with
  | nil =>
    intro pIdx lastErr
    rw [fetchRatesGo_nil]
    exact DelayShape.nil
  | cons p rest ih =>
    intro pIdx lastErr
    have hblock := providerRun_delayShape maxR pIdx p maxR 1 (by omega)
    cases hres : (providerRun pIdx p 1 maxR).2.1 with
    | some t =>
      rw [fetchRatesGo_consOk pIdx rest lastErr hres]
      exact hblock
    | none =>
      rw [fetchRatesGo_consFail pIdx rest lastErr hres]
      exact hblock.append (ih _ _)

/-- Attempt events of a full run: provider indices at least the entry
index, attempt numbers in `[1, maxRetries]`, consecutive-successor
chaining, first attempt numbered 1, and at most `maxRetries` attempts per
provider index. -/
theorem fetchRatesGo_atts {E : Type} (maxR : ℕ) :
    ∀ (ps : List (ℕ → Except E RateTable)) (pIdx : ℕ) (lastErr : Option E),
      (∀ x ∈ evAtts (fetchRatesGo ps maxR pIdx lastErr).1,
          pIdx ≤ x.1 ∧ 1 ≤ x.2.1 ∧ x.2.1 ≤ maxR) ∧
      List.Chain' attR (evAtts (fetchRatesGo ps maxR pIdx lastErr).1) ∧
      (∀ y ∈ (evAtts (fetchRatesGo ps maxR pIdx lastErr).1).head?,
          y.2.1 = 1) ∧
      (∀ i, ((evAtts (fetchRatesGo ps maxR pIdx lastErr).1).filter
          fun x => x.1 = i).length ≤ maxR) := by
  intro ps
  induction ps with
  | nil =>
    intro pIdx lastErr
    rw [fetchRatesGo_nil]
    simp [evAtts_nil]
  | cons p rest ih =>
    intro pIdx lastErr
    obtain ⟨bmem, bchain, bhead, blen⟩ :=
      providerRun_atts maxR pIdx p maxR 1 (by omega)
    cases hres : (providerRun pIdx p 1 maxR).2.1 with
    | some t =>
      rw [fetchRatesGo_consOk pIdx rest lastErr hres]
      refine ⟨?_, bchain, ?_, ?_⟩
      · intro x hx
        obtain ⟨h1, h2, h3⟩ := bmem x hx
        exact ⟨le_of_eq h1.symm, h2, h3⟩
      · intro y hy
        exact (bhead y hy).2
      · intro i
        by_cases hi : i = pIdx
        · subst hi
          exact le_trans (List.length_filter_le _ _) blen
        · have hnil : (evAtts (providerRun pIdx p 1 maxR).1).filter
              (fun x => x.1 = i) = [] := by
            rw [List.filter_eq_nil_iff]
            intro x hx
            have := (bmem x hx).1
            simp [this, hi, Ne.symm hi]
          rw [hnil]
          simp
    | none =>
      obtain ⟨imem, ichain, ihead, icount⟩ := ih (pIdx + 1)
        (lastErrUpd (providerRun pIdx p 1 maxR).2.2 lastErr)
      rw [fetchRatesGo_consFail pIdx rest lastErr hres]
      rw [evAtts_append]
      refine ⟨?_, ?_, ?_, ?_⟩
      · intro x hx
        rw [List.mem_append] at hx
        rcases hx with hx | hx
        · obtain ⟨h1, h2, h3⟩ := bmem x hx
          exact ⟨le_of_eq h1.symm, h2, h3⟩
        · obtain ⟨h1, h2, h3⟩ := imem x hx
          exact ⟨by omega, h2, h3⟩
      · rw [List.chain'_append]
        refine ⟨bchain, ichain, ?_⟩
        intro x hx y hy
        have hxm : x ∈ evAtts (providerRun pIdx p 1 maxR).1 :=
          List.mem_of_mem_getLast? hx
        have hym : y ∈ evAtts (fetchRatesGo rest maxR (pIdx + 1)
            (lastErrUpd (providerRun pIdx p 1 maxR).2.2 lastErr)).1 :=
          List.mem_of_mem_head? hy
        have hx1 : x.1 = pIdx := (bmem x hxm).1
        have hy1 : pIdx + 1 ≤ y.1 := (imem y hym).1
        exact Or.inr ⟨by omega, ihead y hy⟩
      · intro y hy
        cases hba : evAtts (providerRun pIdx p 1 maxR).1 with
        | nil =>
          rw [hba] at hy
          simp only [List.nil_append] at hy
          exact ihead y hy
        | cons z zs =>
          rw [hba] at hy
          simp only [List.cons_append, List.head?_cons, Option.mem_def,
            Option.some_inj] at hy
          have hzy : z = y := hy
          have hz := bhead z (by rw [hba]; rfl)
          rw [← hzy]
          exact hz.2
      · intro i
        rw [List.filter_append, List.length_append]
        by_cases hi : i = pIdx
        · have hnil : (evAtts (fetchRatesGo rest maxR (pIdx + 1)
              (lastErrUpd (providerRun pIdx p 1 maxR).2.2 lastErr)).1).filter
              (fun x => x.1 = i) = [] := by
            rw [List.filter_eq_nil_iff]
            intro x hx
            have h1 := (imem x hx).1
            simp only [decide_eq_true_eq]
            omega
          rw [hnil]
          simpa using le_trans (List.length_filter_le _ _) blen
        · have hnil : (evAtts (providerRun pIdx p 1 maxR).1).filter
              (fun x => x.1 = i) = [] := by
            rw [List.filter_eq_nil_iff]
            intro x hx
            have := (bmem x hx).1
            simp [this, hi, Ne.symm hi]
          rw [hnil]
          simpa using icount i

/-- A successful run ends in its unique successful attempt: the event
stream is an all-failed prefix followed by one final successful attempt
event. -/
theorem fetchRatesGo_success {E : Type} (maxR : ℕ) :
    ∀ (ps : List (ℕ → Except E RateTable)) (pIdx : ℕ) (lastErr : Option E)
      (t : RateTable), (fetchRatesGo ps maxR pIdx lastErr).2 = .ok t →
      ∃ init q a, (fetchRatesGo ps maxR pIdx lastErr).1
          = init ++ [.att q a true] ∧
        ∀ x ∈ evAtts init, x.2.2 = false := by
  intro ps
  induction ps with
  | nil =>
    intro pIdx lastErr t ht
    rw [fetchRatesGo_nil] at ht
    simp at ht
  | cons p rest ih =>
    intro pIdx lastErr t ht
    cases hres : (providerRun pIdx p 1 maxR).2.1 with
    | some u =>
      rw [fetchRatesGo_consOk pIdx rest lastErr hres]
      obtain ⟨init, a, heq, hinit⟩ :=
        (providerRun_outcome pIdx p maxR 1).2 u hres
      exact ⟨init, pIdx, a, heq, hinit⟩
    | none =>
      rw [fetchRatesGo_consFail pIdx rest lastErr hres] at ht ⊢
      simp only at ht
      obtain ⟨init, q, a, heq, hinit⟩ := ih (pIdx + 1)
        (lastErrUpd (providerRun pIdx p 1 maxR).2.2 lastErr) t ht
      refine ⟨(providerRun pIdx p 1 maxR).1 ++ init, q, a, ?_, ?_⟩
      · rw [heq, List.append_assoc]
      · intro x hx
        rw [evAtts_append, List.mem_append] at hx
        rcases hx with hx | hx
        · exact (providerRun_outcome pIdx p maxR 1).1 hres x hx
        · exact hinit x hx

/-- A provider that fails on attempts `attempt..attempt+k-1` and succeeds
on attempt `attempt+k` (within the remaining budget) yields the table,
with exactly the `k` failed attempt events, one final successful attempt
event, and exactly `k` backoff delays of `2^(a-1)` seconds each. -/
theorem providerRun_failsThenOk {E : Type} (pIdx : ℕ)
    (p : ℕ → Except E RateTable) (t : RateTable) :
    ∀ k fuel attempt, k < fuel →
      (∀ j, j < k → ∃ e, p (attempt + j) = .error e) →
      p (attempt + k) = .ok t →
      (providerRun pIdx p attempt fuel).2.1 = some t ∧
      evAtts (providerRun pIdx p attempt fuel).1
        = ((List.range' attempt k).map fun a => (pIdx, a, false))
            ++ [(pIdx, attempt + k, true)] ∧
      evDelays (providerRun pIdx p attempt fuel).1
        = (List.range' attempt k).map fun a => 2 ^ (a - 1) * 1000 := by
  intro k
  induction k with
  | zero =>
    intro fuel attempt hk _ hok
    rw [Nat.add_zero] at hok
    match fuel, hk with
    | fuel' + 1, _ =>
      rw [providerRun_ok pIdx fuel' hok]
      simp [evAtts_att, evAtts_nil, evDelays_att, evDelays_nil]
  | succ k' ih =>
    intro fuel attempt hk hfail hok
    obtain ⟨e, he⟩ := hfail 0 (by omega)
    rw [Nat.add_zero] at he
    match fuel, hk with
    | fuel' + 1, hk =>
      have hstep := providerRun_errStep pIdx he (show 1 ≤ fuel' by omega)
      have h1 : (providerRun pIdx p attempt (fuel' + 1)).1
          = .att pIdx attempt false :: .delay (2 ^ (attempt - 1) * 1000)
            :: (providerRun pIdx p (attempt + 1) fuel').1 := by rw [hstep]
      have h21 : (providerRun pIdx p attempt (fuel' + 1)).2.1
          = (providerRun pIdx p (attempt + 1) fuel').2.1 := by rw [hstep]
      have hfail' : ∀ j, j < k' → ∃ e', p (attempt + 1 + j) = .error e' := by
        intro j hj
        obtain ⟨e', he'⟩ := hfail (j + 1) (by omega)
        refine ⟨e', ?_⟩
        rw [show attempt + 1 + j = attempt + (j + 1) by omega]
        exact he'
      have hok' : p (attempt + 1 + k') = .ok t := by
        rw [show attempt + 1 + k' = attempt + (k' + 1) by omega]
        exact hok
      obtain ⟨ok1, atts1, dl1⟩ := ih fuel' (attempt + 1) (by omega)
        hfail' hok'
      refine ⟨?_, ?_, ?_⟩
      · rw [h21]
        exact ok1
      · rw [h1, evAtts_att, evAtts_delay, atts1, List.range'_succ]
        simp only [List.map_cons, List.cons_append]
        rw [show attempt + 1 + k' = attempt + (k' + 1) by omega]
      · rw [h1, evDelays_att, evDelays_delay, dl1, List.range'_succ]
        simp only [List.map_cons]

/-- A provider failing on every allowed attempt exhausts its retries and
leaves the error of its final attempt as `lastError`. -/
theorem providerRun_allFail {E : Type} (pIdx : ℕ)
    (p : ℕ → Except E RateTable) (f : ℕ → E) :
    ∀ fuel attempt,
      (∀ a, attempt ≤ a → a < attempt + fuel → p a = .error (f a)) →
      (providerRun pIdx p attempt fuel).2.1 = none ∧
      (providerRun pIdx p attempt fuel).2.2
        = if fuel = 0 then none else some (f (attempt + fuel - 1)) := by
  intro fuel
  induction fuel with
  | zero =>
    intro attempt _
    rw [providerRun_zero]
    simp
  | succ fuel' ih =>
    intro attempt h
    have hp : p attempt = .error (f attempt) :=
      h attempt (le_refl _) (by omega)
    cases fuel' with
    | zero =>
      rw [providerRun_errLast pIdx hp]
      simp
    | succ k =>
      obtain ⟨ih1, ih2⟩ := ih (attempt + 1) (fun a h1 h2 => h a (by omega)
        (by omega))
      rw [providerRun_errStep pIdx hp (by omega)]
      refine ⟨ih1, ?_⟩
      simp only
      rw [ih2]
      simp only [Nat.succ_ne_zero, if_false]
      rw [show attempt + 1 + (k + 1) - 1 = attempt + (k + 1 + 1) - 1
        by omega]

/-- When every provider fails every allowed attempt, the run throws with
the last observed error: the final attempt of the final provider. -/
theorem fetchRatesGo_allFail {E : Type} (maxR : ℕ) (hmr : 1 ≤ maxR)
    (F : (ℕ → Except E RateTable) → ℕ → E) :
    ∀ (ps : List (ℕ → Except E RateTable)) (pIdx : ℕ) (lastErr : Option E)
      (hne : ps ≠ []),
      (∀ p ∈ ps, ∀ a, 1 ≤ a → a ≤ maxR → p a = .error (F p a)) →
      (fetchRatesGo ps maxR pIdx lastErr).2
        = .error (some (F (ps.getLast hne) maxR)) := by
  intro ps
  induction ps with
  | nil =>
    intro pIdx lastErr hne
    exact absurd rfl hne
  | cons p rest ih =>
    intro pIdx lastErr hne h
    have hblock := providerRun_allFail pIdx p (F p) maxR 1
      (fun a h1 h2 => h p (List.mem_cons_self _ _) a h1 (by omega))
    rw [fetchRatesGo_consFail pIdx rest lastErr hblock.1]
    simp only
    cases rest with
    | nil =>
      rw [fetchRatesGo_nil]
      rw [hblock.2]
      simp only [Nat.add_sub_cancel]
      have hmz : maxR ≠ 0 := by omega
      simp [lastErrUpd, hmz, List.getLast_singleton]
    | cons q rest' =>
      rw [ih (pIdx + 1) (lastErrUpd (providerRun pIdx p 1 maxR).2.2 lastErr)
        (by simp) (fun r hr => h r (List.mem_cons_of_mem _ hr))]
      rfl

/-- The table `{SOS: 1, USD: 0.002}` from the spec's concrete scenario
(0.002 = 1/500), other currencies absent (0). -/
def tP2 : RateTable := fun c =>
  match c with
  | .SOS => 1
  | .USD => 1 / 500
  | _ => 0

/-- Scenario provider P1: every attempt fails (error code 1). -/
def pAlwaysFails : ℕ → Except ℕ RateTable := fun _ => .error 1

/-- Scenario provider P2: succeeds immediately with `tP2`. -/
def pP2 : ℕ → Except ℕ RateTable := fun _ => .ok tP2

/-- Witness provider: fails its first attempt, succeeds on the second. -/
def pOnce : ℕ → Except ℕ RateTable := fun a =>
  if a = 1 then .error 3 else .ok tP2

/-- Witness seed table. -/
def seedW : RateTable := fun _ => 1

/-- C3: `ProviderManager.fetchRates` tries providers in order (attempt
events chain by next-attempt-on-same-provider or first-attempt-on-a-later
-provider), attempts each provider at most `maxRetries` times with
attempt numbers in `[1, maxRetries]`, sleeps a backoff of `2^(attempt-1)`
seconds exactly after a failed attempt and before the next attempt on the
same provider (`DelayShape`), stops at the first success; a provider
failing `N-1` times then succeeding on attempt `N ≤ maxRetries` yields
its table after exactly `N-1` backoff delays with no call to the next
provider; and when every provider exhausts its retries the run fails
carrying the last observed error (final attempt of the final provider). -/
theorem C3_fetchRates_retryBackoff {E : Type}
    (ps : List (ℕ → Except E RateTable)) (maxR : ℕ) :
    List.Chain' attR (evAtts (fetchRates ps maxR).1) ∧
    (∀ x ∈ evAtts (fetchRates ps maxR).1, 1 ≤ x.2.1 ∧ x.2.1 ≤ maxR) ∧
    (∀ i, ((evAtts (fetchRates ps maxR).1).filter
        fun x => x.1 = i).length ≤ maxR) ∧
    DelayShape maxR (fetchRates ps maxR).1 ∧
    (∀ t, (fetchRates ps maxR).2 = .ok t →
      ∃ init q a, (fetchRates ps maxR).1 = init ++ [.att q a true] ∧
        ∀ x ∈ evAtts init, x.2.2 = false) ∧
    (∀ p rest N t, ps = p :: rest → 1 ≤ N → N ≤ maxR →
      (∀ j, 1 ≤ j → j < N → ∃ e, p j = .error e) → p N = .ok t →
      (fetchRates ps maxR).2 = .ok t ∧
      evAtts (fetchRates ps maxR).1
        = ((List.range' 1 (N - 1)).map fun a => (0, a, false))
            ++ [(0, N, true)] ∧
      evDelays (fetchRates ps maxR).1
        = (List.range' 1 (N - 1)).map fun a => 2 ^ (a - 1) * 1000) ∧
    (∀ (F : (ℕ → Except E RateTable) → ℕ → E) (hne : ps ≠ []), 1 ≤ maxR →
      (∀ p ∈ ps, ∀ a, 1 ≤ a → a ≤ maxR → p a = .error (F p a)) →
      (fetchRates ps maxR).2 = .error (some (F (ps.getLast hne) maxR))) := by
  obtain ⟨hmem, hchain, hhead, hcount⟩ := fetchRatesGo_atts maxR ps 0 none
  refine ⟨hchain, ?_, hcount, fetchRatesGo_delayShape maxR ps 0 none,
    fetchRatesGo_success maxR ps 0 none, ?_, ?_⟩
  · intro x hx
    exact ⟨(hmem x hx).2.1, (hmem x hx).2.2⟩
  · intro p rest N t hps h1 h2 hfail hok
    subst hps
    have hfail' : ∀ j, j < N - 1 → ∃ e, p (1 + j) = .error e := by
      intro j hj
      obtain ⟨e, he⟩ := hfail (j + 1) (by omega) (by omega)
      exact ⟨e, by rw [Nat.add_comm 1 j]; exact he⟩
    have hok' : p (1 + (N - 1)) = .ok t := by
      rw [show 1 + (N - 1) = N by omega]
      exact hok
    obtain ⟨hres, hatts, hdl⟩ := providerRun_failsThenOk 0 p t (N - 1) maxR 1
      (by omega) hfail' hok'
    rw [show (1 : ℕ) + (N - 1) = N by omega] at hatts
    have heq : fetchRates (p :: rest) maxR
        = ((providerRun 0 p 1 maxR).1, .ok t) :=
      fetchRatesGo_consOk 0 rest none hres
    rw [heq]
    exact ⟨rfl, hatts, hdl⟩
  · intro F hne hm hall
    exact fetchRatesGo_allFail maxR hm F ps 0 none hne hall

/-- Witness for C3: the retry-then-success conjunct on a provider failing
once then succeeding on attempt 2 (one backoff of 1000 ms), and the
exhaustion conjunct on an always-failing provider. -/
theorem C3_fetchRates_retryBackoff_witness :
    (fetchRates [pOnce] 3).2 = .ok tP2 ∧
    evDelays (fetchRates [pOnce] 3).1 = [1000] ∧
    (fetchRates [pAlwaysFails] 2).2 = .error (some 1) := by
  have hsc := (C3_fetchRates_retryBackoff [pOnce] 3).2.2.2.2.2.1 pOnce [] 2
    tP2 rfl (by omega) (by omega)
    (fun j hj1 hj2 => ⟨3, by
      have hj : j = 1 := by omega
      subst hj
      rfl⟩)
    rfl
  refine ⟨hsc.1, ?_, ?_⟩
  · rw [hsc.2.2]
    rfl
  · exact (C3_fetchRates_retryBackoff [pAlwaysFails] 2).2.2.2.2.2.2
      (fun _ _ => 1) (by simp) (by omega)
      (fun p hp a h1 h2 => by
        simp only [List.mem_singleton] at hp
        subst hp
        rfl)

/-- C2 counterexample: `getRates` (`src/index.ts`) never delegates to
`ProviderManager`; on a cache miss it performs exactly one call to its
single configured provider's `fetchRatesSOS`.  Here that single call
fails — exactly P1's behaviour in the claimed scenario — and `getRates`
returns the seed table after one attempt, instead of making two failed
attempts on P1 and then returning `{SOS:1, USD:0.002}` from P2. -/
theorem C2_getRates_noManager_cex :
    (getRates seedW none none 0 21600000 false none true).fetchCount = 1 ∧
    (getRates seedW none none 0 21600000 false none true).rates = seedW ∧
    seedW ≠ tP2 := by
  refine ⟨rfl, rfl, ?_⟩
  intro h
  have hUSD := congrFun h CCy.USD
  norm_num [seedW, tP2] at hUSD

/-- C2 (amended): the claimed scenario holds of
`ProviderManager.fetchRates` itself — with providers [P1 always failing,
P2 returning {SOS:1, USD:0.002}] and `maxRetries = 2` the run makes
exactly two failed attempts on P1 (with one backoff), then returns P2's
table from P2's first attempt with zero attempts beyond that success —
while `getRates` does not route through `ProviderManager`: on any cache
miss with `offline` unset it invokes its single configured provider
exactly once. -/
theorem C2_fetchRates_scenario :
    (fetchRates [pAlwaysFails, pP2] 2).2 = .ok tP2 ∧
    evAtts (fetchRates [pAlwaysFails, pP2] 2).1
      = [(0, 1, false), (0, 2, false), (1, 1, true)] ∧
    evDelays (fetchRates [pAlwaysFails, pP2] 2).1 = [1000] ∧
    (∀ (seed : RateTable) (mem disk : Option Cached) (now ttlMs : ℤ)
      (fetch : Option RateTable) (wOk : Bool),
      ¬ isFresh (readCache mem disk) now ttlMs →
      (getRates seed mem disk now ttlMs false fetch wOk).fetchCount = 1) := by
  refine ⟨rfl, rfl, rfl, ?_⟩
  intro seed mem disk now ttlMs fetch wOk hstale
  cases hc : readCache mem disk with
  | none =>
    cases fetch <;> simp [getRates, hc]
  | some c =>
    have hge : ¬ now - c.capturedAt < ttlMs := fun h => hstale ⟨c, hc, h⟩
    cases fetch <;> simp [getRates, hc, hge]

/-- Witness for C2 (amended): the single-invocation clause at a concrete
stale cache. -/
theorem C2_fetchRates_scenario_witness :
    GetRatesOutcome.fetchCount
      (getRates seedW (some staleSnap) none 50 10 false (some tP2) true)
      = 1 :=
  C2_fetchRates_scenario.2.2.2 seedW (some staleSnap) none 50 10
    (some tP2) true (by norm_num [isFresh, readCache, staleSnap])

/-- A provider as seen by the fallback-list sort: an identity and the
`priority` field of the `Provider` interface (`src/types.ts`), which is
absent on e.g. `ExchangerateHostProvider`. -/
structure Prov where
  pid : ℕ
  priority : Option ℤ
deriving DecidableEq

/-- The comparator key `provider.priority || 999`
(`src/providers/manager.ts` line 88): JavaScript `||` replaces a falsy
priority — absent, or 0 — by 999. -/
def effPriority (p : Prov) : ℤ :=
  match p.priority with
  | none => 999
  | some v => if v = 0 then 999 else v

/-- Embedding of `addFallbackProvider` (`src/providers/manager.ts` lines
85–89): push the provider, then sort the fallback list with the
comparator `(a.priority || 999) - (b.priority || 999)`.
`Array.prototype.sort` is the stable ascending sort by that key, which is
exactly insertion sort over `effPriority · ≤ effPriority ·`. -/
def addFallbackProvider (fallbacks : List Prov) (p : Prov) : List Prov :=
  List.insertionSort (fun a b => effPriority a ≤ effPriority b)
    (fallbacks ++ [p])

/-- C9 counterexample: a provider with an absent priority is keyed 999,
which is not least preference — adding it to a list holding a provider of
priority 1000 places the absent-priority provider first, not last. -/
theorem C9_addFallbackProvider_absentNotLast_cex :
    addFallbackProvider [⟨0, some 1000⟩] ⟨1, none⟩
      = [⟨1, none⟩, ⟨0, some 1000⟩] ∧
    (⟨1, none⟩ : Prov).priority = none ∧
    (addFallbackProvider [⟨0, some 1000⟩] ⟨1, none⟩).getLast?
      ≠ some ⟨1, none⟩ := by
  refine ⟨?_, rfl, ?_⟩ <;> decide

/-- C9 (amended): `addFallbackProvider(p)` appends `p` and re-sorts the
fallback list ascending by the effective priority `priority || 999` — an
absent (or zero) priority counts as exactly 999, so absent-priority
providers order after priorities below 999 but before priorities above
999, not as unconditionally least preferred; after any sequence of
additions the list is a permutation of its members sorted ascending by
that key. -/
theorem C9_addFallbackProvider_sortedByEffPriority
    (fallbacks : List Prov) (p : Prov) :
    List.Perm (addFallbackProvider fallbacks p) (fallbacks ++ [p]) ∧
    List.Sorted (fun a b => effPriority a ≤ effPriority b)
      (addFallbackProvider fallbacks p) := by
  constructor
  · exact List.perm_insertionSort _ _
  · haveI h1 : IsTotal Prov (fun a b => effPriority a ≤ effPriority b) :=
      ⟨fun a b => le_total _ _⟩
    haveI h2 : IsTrans Prov (fun a b => effPriority a ≤ effPriority b) :=
      ⟨fun a b c hab hbc => le_trans hab hbc⟩
    exact List.sorted_insertionSort _ _

/-- The persisted historical cache (`HistoricalCache` in
`src/localization.ts`): date ↦ rate table, dates as day numbers (ISO
date strings compare lexicographically exactly as day numbers compare). -/
abbrev HistCache : Type := List (ℕ × RateTable)

/-- Object property lookup `cached[date]`. -/
def lookupH : HistCache → ℕ → Option RateTable
  | [], _ => none
  | (k, v) :: rest, d => if k = d then some v else lookupH rest d

/-- Object property assignment `cached[date] = rates`: overwrite in place
or append. -/
def setKey : HistCache → ℕ → RateTable → HistCache
  | [], d, r => [(d, r)]
  | (k, v) :: rest, d, r =>
    if k = d then (k, r) :: rest else (k, v) :: setKey rest d r

/-- Embedding of `HistoricalRateService.cacheRates`
(`src/localization.ts` lines 883–899): store the new entry, then delete
every key strictly below the 90-day cutoff (`date < cutoffStr`, i.e. keep
when `cutoff ≤ date`), then persist best-effort. -/
def cacheRates (today d : ℕ) (r : RateTable) (c : HistCache) : HistCache :=
  (setKey c d r).filter fun e => today - 90 ≤ e.1

/-- C5: after every `cacheRates` write — whatever date triggered it — no
entry older than the 90-day retention cutoff remains in the persisted
historical cache, and every entry of the post-insert table within the
window is kept. -/
theorem C5_cacheRates_prunes (today d : ℕ) (r : RateTable)
    (c : HistCache) :
    (∀ e ∈ cacheRates today d r c, today - 90 ≤ e.1) ∧
    (∀ e ∈ setKey c d r, today - 90 ≤ e.1 → e ∈ cacheRates today d r c)
    := by
  constructor
  · intro e he
    have hp := List.of_mem_filter he
    simpa using hp
  · intro e he hle
    exact List.mem_filter.mpr ⟨he, by simpa using hle⟩

/-- Witness for C5: on day 100 a write for day 50 keeps the in-window
entry (day 50) and the theorem's first clause prunes the day-5 entry. -/
theorem C5_cacheRates_prunes_witness :
    (50, seedW) ∈ cacheRates 100 50 seedW [(5, tP2)] ∧
    ¬ (5, tP2) ∈ cacheRates 100 50 seedW [(5, tP2)] := by
  constructor
  · exact (C5_cacheRates_prunes 100 50 seedW [(5, tP2)]).2 (50, seedW)
      (by decide) (by decide)
  · intro hmem
    have := (C5_cacheRates_prunes 100 50 seedW [(5, tP2)]).1 (5, tP2) hmem
    omega

/-- One day's resolution — `HistoricalRateService.getHistoricalRates`
(`src/localization.ts` lines 802–822) with the provider manager
abstracted to an outcome oracle `fetchH` (`none` = the manager threw): a
cache hit returns the entry; on a miss a successful fetch is written
through `cacheRates` and returned; a failed fetch rethrows. -/
def getHistoricalRates (today : ℕ) (fetchH : ℕ → Option RateTable)
    (c : HistCache) (d : ℕ) : Option RateTable × HistCache :=
  match lookupH c d with
  | some t => (some t, c)
  | none =>
    match fetchH d with
    | some r => (some r, cacheRates today d r c)
    | none => (none, c)

/-- The day loop of `getRateHistory` (lines 831–845) over an explicit
ascending list of day numbers, threading the historical cache; a day
whose resolution throws is skipped (logged, non-fatal). -/
def historyGo (today : ℕ) (fetchH : ℕ → Option RateTable) (cur : CCy)
    (baseIsSOS : Bool) : List ℕ → HistCache → List (ℕ × ℚ) × HistCache
  | [], c => ([], c)
  | d :: ds, c =>
    match getHistoricalRates today fetchH c d with
    | (some t, c') =>
      let rst := historyGo today fetchH cur baseIsSOS ds c'
      ((d, if baseIsSOS then t cur else 1 / t cur) :: rst.1, rst.2)
    | (none, c') => historyGo today fetchH cur baseIsSOS ds c'

/-- Embedding of `getRateHistory` (lines 824–848): walk every calendar
day of the inclusive range `[dFrom, dTo]` in ascending order
(`List.range' dFrom (dTo + 1 - dFrom)`); `baseIsSOS` is whether the
caller's `baseCurrency` (default `SOS`) is the pivot. -/
def getRateHistory (today : ℕ) (fetchH : ℕ → Option RateTable) (cur : CCy)
    (baseIsSOS : Bool) (dFrom dTo : ℕ) (c : HistCache) :
    List (ℕ × ℚ) × HistCache :=
  historyGo today fetchH cur baseIsSOS
    (List.range' dFrom (dTo + 1 - dFrom)) c

/-- `List.range'` with step 1 is strictly increasing. -/
theorem pairwise_lt_range' : ∀ (n s : ℕ),
    List.Pairwise (· < ·) (List.range' s n) := by
  intro n
  induction n with
  | zero => intro s; simp
  | succ m ih =>
    intro s
    rw [List.range'_succ]
    refine List.Pairwise.cons ?_ (ih (s + 1))
    intro y hy
    have := (List.mem_range'_1.mp hy).1
    omega

/-- The dates produced by the day loop form a sublist of the visited
days. -/
theorem historyGo_sublist (today : ℕ) (fetchH : ℕ → Option RateTable)
    (cur : CCy) (b : Bool) :
    ∀ (days : List ℕ) (c : HistCache),
      ((historyGo today fetchH cur b days c).1.map Prod.fst).Sublist days
    := by
  intro days
  induction days with
  | nil =>
    intro c
    simp [historyGo]
  | cons d ds ih =>
    intro c
    cases hres : getHistoricalRates today fetchH c d with
    | mk o c' =>
      cases o with
      | some t =>
        simp only [historyGo, hres, List.map_cons]
        exact (ih c').cons₂ d
      | none =>
        simp only [historyGo, hres]
        exact (ih c').cons d

/-- A day whose provider fetch succeeds is never skipped. -/
theorem historyGo_notSkipped (today : ℕ) (fetchH : ℕ → Option RateTable)
    (cur : CCy) (b : Bool) :
    ∀ (days : List ℕ) (c : HistCache) (d : ℕ), d ∈ days →
      (fetchH d).isSome →
      d ∈ (historyGo today fetchH cur b days c).1.map Prod.fst := by
  intro days
  induction days with
  | nil =>
    intro c d hd
    simp at hd
  | cons d0 ds ih =>
    intro c d hd hf
    rw [List.mem_cons] at hd
    cases hres : getHistoricalRates today fetchH c d0 with
    | mk o c' =>
      rcases hd with rfl | hd
      · cases o with
        | some t =>
          simp [historyGo, hres]
        | none =>
          exfalso
          unfold getHistoricalRates at hres
          cases hl : lookupH c d with
          | some u => rw [hl] at hres; simp at hres
          | none =>
            rw [hl] at hres
            cases hfd : fetchH d with
            | some r => rw [hfd] at hres; simp at hres
            | none => rw [hfd] at hf; simp at hf
      · cases o with
        | some t =>
          simp only [historyGo, hres, List.map_cons, List.mem_cons]
          exact Or.inr (ih c' d hd hf)
        | none =>
          simp only [historyGo, hres]
          exact ih c' d hd hf

/-- Filtering cannot create a key that was absent. -/
theorem lookupH_filter_none (pred : ℕ × RateTable → Bool) :
    ∀ (c : HistCache) (d : ℕ), lookupH c d = none →
      lookupH (c.filter pred) d = none := by
  intro c
  induction c with
  | nil => intro d _; rfl
  | cons e rest ih =>
    intro d h
    obtain ⟨k, v⟩ := e
    by_cases hk : k = d
    · subst hk
      simp [lookupH] at h
    · rw [List.filter_cons]
      have h' : lookupH rest d = none := by
        simpa [lookupH, hk] using h
      by_cases hp : pred (k, v) = true
      · simp only [hp, if_true]
        simpa [lookupH, hk] using ih d h'
      · simp only [hp]
        simp only [Bool.false_eq_true, if_false]
        exact ih d h'

/-- Assignment to one key leaves other keys' lookups unchanged. -/
theorem lookupH_setKey_ne (d' d : ℕ) (hne : d' ≠ d) (r : RateTable) :
    ∀ c : HistCache, lookupH (setKey c d r) d' = lookupH c d' := by
  have hdd : d ≠ d' := fun h => hne h.symm
  intro c
  induction c with
  | nil =>
    simp [setKey, lookupH, hdd]
  | cons e rest ih =>
    obtain ⟨k, v⟩ := e
    by_cases hk : k = d
    · subst hk
      simp [setKey, lookupH, hdd]
    · simp [setKey, lookupH, hk, ih]

/-- A cache write for day `d` cannot create an entry for a different
absent day. -/
theorem lookupH_cacheRates_none (today d d' : ℕ) (hne : d' ≠ d)
    (r : RateTable) (c : HistCache) (h : lookupH c d' = none) :
    lookupH (cacheRates today d r c) d' = none := by
  unfold cacheRates
  apply lookupH_filter_none
  rw [lookupH_setKey_ne d' d hne r]
  exact h

/-- Result-list equation of the day loop when a day resolves. -/
theorem historyGo_fst_cons_some (today : ℕ)
    (fetchH : ℕ → Option RateTable) (cur : CCy) (b : Bool) {c c' : HistCache}
    {d : ℕ} {t : RateTable} (ds : List ℕ)
    (h : getHistoricalRates today fetchH c d = (some t, c')) :
    (historyGo today fetchH cur b (d :: ds) c).1
      = (d, if b then t cur else 1 / t cur)
          :: (historyGo today fetchH cur b ds c').1 := by
  simp [historyGo, h]

/-- Result-list equation of the day loop when a day's resolution throws:
the day is skipped. -/
theorem historyGo_fst_cons_none (today : ℕ)
    (fetchH : ℕ → Option RateTable) (cur : CCy) (b : Bool) {c c' : HistCache}
    {d : ℕ} (ds : List ℕ)
    (h : getHistoricalRates today fetchH c d = (none, c')) :
    (historyGo today fetchH cur b (d :: ds) c).1
      = (historyGo today fetchH cur b ds c').1 := by
  simp [historyGo, h]

/-- With an empty-for-these-days cache and distinct days, the walk is
exactly the per-day fetch outcomes. -/
theorem historyGo_char (today : ℕ) (fetchH : ℕ → Option RateTable)
    (cur : CCy) (b : Bool) :
    ∀ (days : List ℕ) (c : HistCache),
      (∀ d ∈ days, lookupH c d = none) →
      List.Pairwise (· ≠ ·) days →
      (historyGo today fetchH cur b days c).1
        = days.filterMap fun d => (fetchH d).map fun t =>
            (d, if b then t cur else 1 / t cur) := by
  intro days
  induction days with
  | nil =>
    intro c _ _
    rfl
  | cons d ds ih =>
    intro c hmiss hpw
    have hd : lookupH c d = none := hmiss d (List.mem_cons_self _ _)
    rw [List.pairwise_cons] at hpw
    cases hfd : fetchH d with
    | some r =>
      have hres : getHistoricalRates today fetchH c d
          = (some r, cacheRates today d r c) := by
        simp [getHistoricalRates, hd, hfd]
      have hmiss' : ∀ d' ∈ ds, lookupH (cacheRates today d r c) d' = none :=
        fun d' hd' => lookupH_cacheRates_none today d d'
          (Ne.symm (hpw.1 d' hd')) r c (hmiss d' (List.mem_cons_of_mem _ hd'))
      rw [historyGo_fst_cons_some today fetchH cur b ds hres,
        ih (cacheRates today d r c) hmiss' hpw.2, List.filterMap_cons]
      simp [hfd]
    | none =>
      have hres : getHistoricalRates today fetchH c d = (none, c) := by
        simp [getHistoricalRates, hd, hfd]
      rw [historyGo_fst_cons_none today fetchH cur b ds hres,
        ih c (fun d' hd' => hmiss d' (List.mem_cons_of_mem _ hd')) hpw.2,
        List.filterMap_cons]
      simp [hfd]

/-- C6: `getRateHistory(currency, from, to)` visits the inclusive day
range ascending — the produced dates are strictly increasing and lie in
`[from, to]`; a day whose fetch fails is skipped without aborting the
range (a day whose fetch succeeds always appears); and on a cold cache
the result is exactly, per day, `{date, rate}` with `rate =
table[currency]` for the pivot base and `1 / table[currency]` otherwise.
-/
theorem C6_getRateHistory_spec (today : ℕ)
    (fetchH : ℕ → Option RateTable) (cur : CCy) (b : Bool)
    (dFrom dTo : ℕ) (c : HistCache) :
    List.Pairwise (· < ·)
      ((getRateHistory today fetchH cur b dFrom dTo c).1.map Prod.fst) ∧
    (∀ e ∈ (getRateHistory today fetchH cur b dFrom dTo c).1,
      dFrom ≤ e.1 ∧ e.1 ≤ dTo) ∧
    (∀ d, dFrom ≤ d → d ≤ dTo → (fetchH d).isSome →
      d ∈ (getRateHistory today fetchH cur b dFrom dTo c).1.map Prod.fst) ∧
    (c = [] →
      (getRateHistory today fetchH cur b dFrom dTo c).1
        = (List.range' dFrom (dTo + 1 - dFrom)).filterMap fun d =>
            (fetchH d).map fun t =>
              (d, if b then t cur else 1 / t cur)) := by
  refine ⟨?_, ?_, ?_, ?_⟩
  · exact (pairwise_lt_range' (dTo + 1 - dFrom) dFrom).sublist
      (historyGo_sublist today fetchH cur b _ c)
  · intro e he
    have hmem : e.1 ∈ List.range' dFrom (dTo + 1 - dFrom) :=
      (historyGo_sublist today fetchH cur b _ c).mem
        (List.mem_map_of_mem Prod.fst he)
    have := List.mem_range'_1.mp hmem
    omega
  · intro d h1 h2 hf
    refine historyGo_notSkipped today fetchH cur b _ c d ?_ hf
    rw [List.mem_range'_1]
    omega
  · intro hc
    subst hc
    exact historyGo_char today fetchH cur b _ [] (fun _ _ => rfl)
      ((pairwise_lt_range' _ _).imp Nat.ne_of_lt)

/-- Witness for C6: days 1–3, day 2's fetch failing; day 3 is fetched
successfully hence present, and the cold-cache walk yields exactly days 1
and 3 at rate `tP2 USD = 1/500`. -/
theorem C6_getRateHistory_spec_witness :
    (3 : ℕ) ∈ (getRateHistory 100
        (fun d => if d = 2 then none else some tP2) CCy.USD true 1 3
        []).1.map Prod.fst ∧
    (getRateHistory 100 (fun d => if d = 2 then none else some tP2)
        CCy.USD true 1 3 []).1
      = [(1, tP2 CCy.USD), (3, tP2 CCy.USD)] := by
  constructor
  · exact (C6_getRateHistory_spec 100
      (fun d => if d = 2 then none else some tP2) CCy.USD true 1 3
      []).2.2.1 3 (by omega) (by omega) (by decide)
  · rw [(C6_getRateHistory_spec 100
      (fun d => if d = 2 then none else some tP2) CCy.USD true 1 3
      []).2.2.2 rfl]
    rfl

/-- A provider as seen by `fetchHistoricalRates`: the optional
`fetchHistoricalRates` capability (`Provider` interface, `src/types.ts`),
and when implemented, its per-date outcome (`none` = it threw). -/
structure ProvH where
  histFetch : Option (ℕ → Option RateTable)

/-- The loop of `ProviderManager.fetchHistoricalRates`
(`src/providers/manager.ts` lines 46–65) after the capability filter:
first success wins, a failure moves on, provider invocations counted. -/
def fetchHistoricalRatesGo : List ProvH → ℕ → Option RateTable × ℕ
  | [], _ => (none, 0)
  | p :: rest, d =>
    match p.histFetch with
    | some f =>
      match f d with
      | some t => (some t, 1)
      | none =>
        let rst := fetchHistoricalRatesGo rest d
        (rst.1, rst.2 + 1)
    | none => fetchHistoricalRatesGo rest d

/-- Embedding of `ProviderManager.fetchHistoricalRates(date)`: filter
`[primary, ...fallbacks]` to providers declaring the historical
capability, then run the loop; `(none, n)` means the call threw `All
providers failed for historical data` after `n` provider invocations. -/
def fetchHistoricalRates (ps : List ProvH) (d : ℕ) :
    Option RateTable × ℕ :=
  fetchHistoricalRatesGo (ps.filter fun p => p.histFetch.isSome) d

/-- `ExchangerateHostProvider` (`src/providers/exchangeratehost.ts`)
implements only `fetchRatesSOS`: no historical capability. -/
def exchangerateHostProvider : ProvH := ⟨none⟩

/-- The default `ProviderManager` configuration
(`src/providers/manager.ts` lines 10–16): primary
`ExchangerateHostProvider`, no fallbacks. -/
def defaultProviders : List ProvH := [exchangerateHostProvider]

/-- C10: with no provider declaring the historical capability,
`ProviderManager.fetchHistoricalRates` throws after zero provider
invocations; in particular under the default configuration (primary
`ExchangerateHostProvider`, no fallbacks) it always does, so every
cache-miss `HistoricalRateService.getHistoricalRates(date)` call throws
and leaves the cache unchanged. -/
theorem C10_fetchHistorical_noCapableProvider (ps : List ProvH) (d : ℕ) :
    ((∀ p ∈ ps, p.histFetch = none) →
      fetchHistoricalRates ps d = (none, 0)) ∧
    fetchHistoricalRates defaultProviders d = (none, 0) ∧
    (∀ today (c : HistCache), lookupH c d = none →
      getHistoricalRates today
        (fun d' => (fetchHistoricalRates defaultProviders d').1) c d
        = (none, c)) := by
  refine ⟨?_, rfl, ?_⟩
  · intro hnone
    have hfil : ps.filter (fun p => p.histFetch.isSome) = [] := by
      rw [List.filter_eq_nil_iff]
      intro p hp
      simp [hnone p hp]
    rw [fetchHistoricalRates, hfil]
    rfl
  · intro today c hmiss
    simp [getHistoricalRates, hmiss, fetchHistoricalRates,
      defaultProviders, exchangerateHostProvider, fetchHistoricalRatesGo]

/-- Witness for C10: a cache holding only day 5 misses day 7; the
cache-miss call under the default configuration throws and the cache is
untouched. -/
theorem C10_fetchHistorical_noCapableProvider_witness :
    fetchHistoricalRates [⟨none⟩, ⟨none⟩] 7 = (none, 0) ∧
    getHistoricalRates 100
        (fun d' => (fetchHistoricalRates defaultProviders d').1)
        [(5, tP2)] 7
      = (none, [(5, tP2)]) := by
  constructor
  · exact (C10_fetchHistorical_noCapableProvider [⟨none⟩, ⟨none⟩] 7).1
      (by intro p hp
          rcases List.mem_cons.mp hp with rfl | hp'
          · rfl
          · rcases List.mem_cons.mp hp' with rfl | hp''
            · rfl
            · simp at hp'')
  · exact (C10_fetchHistorical_noCapableProvider [] 7).2.2 100 [(5, tP2)]
      (by decide)

/-- Daily simple returns of a rate series (`src/localization.ts` lines
865–869): for each consecutive pair, `(next - prev) / prev`. -/
def dailyReturns (rates : List ℚ) : List ℚ :=
  (rates.zip rates.tail).map fun pr => (pr.2 - pr.1) / pr.1

/-- The variance computed at lines 872–873: `mean = Σ/n`, `variance =
Σ (r - mean)² / n` — divided by the count `n` (population variance), not
by `n - 1` (sample variance). -/
def popVariance (rs : List ℚ) : ℚ :=
  ((rs.map fun r => (r - rs.sum / rs.length) ^ 2).sum) / rs.length

/-- Embedding of `getVolatility`'s statistic (lines 850–876), applied to
the rate series `history.map(h => h.rate)` that `getRateHistory` produced
for the trailing window: 0 for fewer than two points, else
`sqrt(variance) * sqrt(365)` (noncomputable only through `Real.sqrt`). -/
noncomputable def getVolatility (rates : List ℚ) : ℝ :=
  if rates.length < 2 then 0
  else Real.sqrt (popVariance (dailyReturns rates)) * Real.sqrt 365

/-- Modelled from the spec's indexed formula: `r_i = (rate_i -
rate_{i-1}) / rate_{i-1}` for `i = 1 .. len-1`. -/
def specDailyReturns (rates : List ℚ) : List ℚ :=
  (List.range (rates.length - 1)).map fun i =>
    (rates.getD (i + 1) 0 - rates.getD i 0) / rates.getD i 0

/-- The variance of a one-element list is 0 whatever the element. -/
theorem popVariance_singleton (x : ℚ) : popVariance [x] = 0 := by
  norm_num [popVariance]

/-- The returns of a constant series are all zero. -/
theorem dailyReturns_replicate (x : ℚ) :
    ∀ n, dailyReturns (List.replicate n x) = List.replicate (n - 1) 0 := by
  intro n
  induction n with
  | zero => rfl
  | succ m ih =>
    cases m with
    | zero => rfl
    | succ k =>
      have hstep : dailyReturns (List.replicate (k + 1 + 1) x)
          = ((x - x) / x) :: dailyReturns (List.replicate (k + 1) x) := by
        simp [List.replicate_succ, dailyReturns]
      rw [hstep, ih]
      simp [List.replicate_succ]

/-- The variance of an all-zero list is 0. -/
theorem popVariance_replicate_zero (m : ℕ) :
    popVariance (List.replicate m 0) = 0 := by
  simp [popVariance, List.sum_replicate, List.map_replicate]

/-- The code's zip-based returns coincide with the spec's indexed
formula. -/
theorem dailyReturns_eq_spec :
    ∀ rates : List ℚ, dailyReturns rates = specDailyReturns rates := by
  intro rates
  induction rates with
  | nil => rfl
  | cons a rest ih =>
    cases rest with
    | nil => rfl
    | cons b t =>
      have hL : dailyReturns (a :: b :: t)
          = ((b - a) / a) :: dailyReturns (b :: t) := by
        simp [dailyReturns]
      rw [hL, ih]
      simp only [specDailyReturns, List.length_cons,
        Nat.add_sub_cancel, List.range_succ_eq_map, List.map_cons,
        List.map_map]
      refine congrArg₂ _ ?_ ?_
      · simp
      · refine List.map_congr_left ?_
        intro i _
        simp [Function.comp, List.getD_cons_succ]

/-- C4 counterexample: a two-point series with the single return `r = 1`
(rates 1 then 2) has volatility 0 under the code's statistic — the
variance of one return about its own mean is 0 — not `|r| * sqrt 365` as
the claim states. -/
theorem C4_getVolatility_twoPoint_cex :
    getVolatility [1, 2] = 0 ∧
    getVolatility [1, 2] ≠ |(1 : ℝ)| * Real.sqrt 365 := by
  have hv : popVariance (dailyReturns [1, 2]) = 0 := by
    norm_num [dailyReturns, popVariance]
  have h0 : getVolatility [1, 2] = 0 := by
    simp [getVolatility, hv]
  refine ⟨h0, ?_⟩
  rw [h0, abs_one, one_mul]
  intro heq
  have h365 : (0 : ℝ) < Real.sqrt 365 := Real.sqrt_pos.mpr (by norm_num)
  exact absurd heq.symm (ne_of_gt h365)

/-- C4 (amended): `getVolatility` returns the **population** standard
deviation of the daily simple returns — Σ(r-mean)²/n, not the sample
(n-1) one — times `sqrt 365`; fewer than 2 data points yield 0, every
two-point series yields 0 (its one return equals the mean), a
constant-rate series yields 0, and the returns agree with the spec's
indexed formula `r_i = (rate_i - rate_{i-1}) / rate_{i-1}`. -/
theorem C4_getVolatility_population (rates : List ℚ) :
    (rates.length < 2 → getVolatility rates = 0) ∧
    (∀ a b : ℚ, getVolatility [a, b] = 0) ∧
    (∀ (x : ℚ) (n : ℕ), getVolatility (List.replicate n x) = 0) ∧
    dailyReturns rates = specDailyReturns rates ∧
    (2 ≤ rates.length →
      getVolatility rates
        = Real.sqrt (popVariance (dailyReturns rates)) * Real.sqrt 365)
    := by
  refine ⟨?_, ?_, ?_, dailyReturns_eq_spec rates, ?_⟩
  · intro h
    simp [getVolatility, h]
  · intro a b
    have hd : dailyReturns [a, b] = [(b - a) / a] := by
      simp [dailyReturns]
    simp [getVolatility, hd, popVariance_singleton]
  · intro x n
    by_cases hn : n < 2
    · simp [getVolatility, hn]
    · have h2 : ¬ (List.replicate n x).length < 2 := by
        simp only [List.length_replicate]
        omega
      simp only [getVolatility, h2, if_false]
      rw [dailyReturns_replicate x n, popVariance_replicate_zero]
      simp
  · intro h
    simp [getVolatility, Nat.not_lt.mpr h]

/-- Witness for C4 (amended): each clause at a concrete series. -/
theorem C4_getVolatility_population_witness :
    getVolatility [5] = 0 ∧
    getVolatility [3, 7] = 0 ∧
    getVolatility (List.replicate 4 2) = 0 ∧
    getVolatility [1, 2, 4]
      = Real.sqrt (popVariance (dailyReturns [1, 2, 4])) * Real.sqrt 365
    := by
  refine ⟨?_, ?_, ?_, ?_⟩
  · exact (C4_getVolatility_population [5]).1 (by norm_num)
  · exact (C4_getVolatility_population []).2.1 3 7
  · exact (C4_getVolatility_population []).2.2.1 2 4
  · exact (C4_getVolatility_population [1, 2, 4]).2.2.2.2 (by norm_num)

end Sosx
